import Mathlib

/-!
Verification of the `Scaler` component of the `fhe.rs` polynomial-ring core
(`src/crates/math/src/rq/scaler.rs`), over a shallow embedding.

Only the `Scaler` orchestration is present in the sources; the collaborators it
drives (`Context`, `Poly`, the NTT transform operators, and the `RnsScaler`
numeric kernel) are modelled from the specification, as indicated on each
definition.  Machine integers are modelled as `Nat`/`Int`; coefficient matrices
are row-major lists of rows, exactly as the `ndarray` `Array2` the code uses.
-/

set_option maxHeartbeats 1600000

namespace FheRs

/-- Representation tag of a polynomial: power-basis or transform (NTT) domain. -/
inductive Representation where
  | PowerBasis
  | Ntt
deriving DecidableEq

/-- Modelled from the spec: the per-modulus Transform Operator of section 4.2 is not
part of the shown sources.  Its contract is carried as fields: `forward` and
`backward` are length-preserving and mutually inverse on vectors reduced modulo
`modulus`, and the variable-time variants (`forward_vt`, `backward_vt`) produce
bit-identical results to the constant-time ones. -/
structure TransformOp where
  modulus : Nat
  forward : List Nat → List Nat
  backward : List Nat → List Nat
  forward_vt : List Nat → List Nat
  backward_vt : List Nat → List Nat
  forward_length : ∀ l, (forward l).length = l.length
  backward_length : ∀ l, (backward l).length = l.length
  backward_forward : ∀ l, (∀ x ∈ l, x < modulus) → backward (forward l) = l
  forward_backward : ∀ l, (∀ x ∈ l, x < modulus) → forward (backward l) = l
  forward_vt_eq : forward_vt = forward
  backward_vt_eq : backward_vt = backward

/-- The identity transform operator at a given modulus: the simplest inhabitant of
the section 4.2 contract, used to build concrete contexts for the examples. -/
def idOp (m : Nat) : TransformOp where
  modulus := m
  forward := id
  backward := id
  forward_vt := id
  backward_vt := id
  forward_length := fun _ => rfl
  backward_length := fun _ => rfl
  backward_forward := fun _ _ => rfl
  forward_backward := fun _ _ => rfl
  forward_vt_eq := rfl
  backward_vt_eq := rfl

/-- Modelled from the spec: the Modulus-Chain Context of section 3 (not in the shown
sources): ring degree, ordered modulus list `q`, and one transform operator per
modulus (`ops`).  Per section 3, equality between contexts — as used by other
components to reject cross-context operations — is structural over the modulus
sequence `q`. -/
structure Context where
  degree : Nat
  q : List Nat
  ops : List TransformOp

/-- Modelled from the spec: the Polynomial of section 3 (not in the shown sources):
a shared context, a representation tag, the variable-time flag, the row-major
residue matrix of shape `(q.length, degree)`, and the optional Shoup
precomputed-constant cache. -/
structure Poly where
  ctx : Context
  representation : Representation
  allow_variable_time_computations : Bool
  coefficients : List (List Nat)
  coefficients_shoup : Option (List (List Nat))

/-- The section 3 shape invariant of a polynomial with respect to its context. -/
def PolyWF (p : Poly) : Prop :=
  p.coefficients.length = p.ctx.q.length ∧
    ∀ row ∈ p.coefficients, row.length = p.ctx.degree

/-- Modelled from the spec: the ScalingFactor of section 3 (not in the shown
sources): exact rational numerator/denominator plus the `is_one` flag. -/
structure ScalingFactor where
  numerator : Nat
  denominator : Nat
  is_one : Bool

/-- Modelled from the spec: `ScalingFactor` construction; section 3 states `is_one`
is true iff `numerator == denominator`. -/
def ScalingFactor.new (n d : Nat) : ScalingFactor :=
  { numerator := n, denominator := d, is_one := n == d }

/-- Modelled from the spec: the RnsScaler of section 4.3 (not in the shown sources).
Its precomputed state is derived purely from the data below, so the model keeps
the source moduli, the destination moduli and the factor. -/
structure RnsScaler where
  from_moduli : List Nat
  to_moduli : List Nat
  factor : ScalingFactor

/-- Modelled from the spec: `RnsScaler::new` (section 4.3) never fails: pure
precomputation from the two modulus bases and the factor. -/
def RnsScaler.new (f t : List Nat) (factor : ScalingFactor) : RnsScaler :=
  { from_moduli := f, to_moduli := t, factor := factor }

/-- A modular inverse of `a` modulo `m`, found by exhaustive search so that it is
kernel-computable on the small concrete instances used below.  Returns `0` when no
inverse exists. -/
def modInv (a m : Nat) : Nat :=
  ((List.range m).find? fun b => a * b % m == 1).getD 0

/-- CRT reconstruction: the unique value in `[0, moduli.prod)` having the given
residues, for pairwise-coprime moduli.  Written as an explicit iterated
Chinese-remainder combination so that it is executable. -/
def crtRec : List Nat → List Nat → Nat
  | [], _ => 0
  | _ :: _, [] => 0
  | q :: qs, r :: rs =>
    let y := crtRec qs rs
    let m := qs.prod
    r + q * ((((y : Int) - (r : Int)) * (modInv (q % m) m : Int)) % (m : Int)).toNat

/-- Modelled from the spec: the exact signed scaled value the section 4.3 kernel
rounds to, for one coefficient column of source residues.  The reconstructed value
`x` is first centered (`x ≥ Q/2` represents `x − Q`), then multiplied by
`numerator/denominator` and rounded: floor (toward minus infinity) in floor mode,
nearest (ties away from the floor) otherwise.  `Int` division `/` is Euclidean
division, which is floor division for the positive denominators used here. -/
def RnsScaler.scaledVal (r : RnsScaler) (column : List Nat) (floor : Bool) : Int :=
  let bigQ := r.from_moduli.prod
  let x := crtRec r.from_moduli column
  let c : Int := if bigQ / 2 ≤ x then (x : Int) - (bigQ : Int) else (x : Int)
  if floor then
    c * (r.factor.numerator : Int) / (r.factor.denominator : Int)
  else
    (2 * c * (r.factor.numerator : Int) + (r.factor.denominator : Int)) /
      (2 * (r.factor.denominator : Int))

/-- Modelled from the spec: `RnsScaler::scale` (section 4.3): fill, for one ring
coefficient (one column), the residues of the rounded scaled value across the
destination moduli from `starting_index` on. -/
def RnsScaler.scale (r : RnsScaler) (column : List Nat) (startingIndex : Nat)
    (floor : Bool) : List Nat :=
  (r.to_moduli.drop startingIndex).map fun (m : Nat) =>
    ((r.scaledVal column floor) % (m : Int)).toNat

/-- Column `j` of a row-major matrix (entries default to `0`, as the shapes are
governed by the well-formedness hypotheses of the theorems). -/
def colOf (m : List (List Nat)) (j : Nat) : List Nat :=
  m.map fun row => row.getD j 0

/-- Row-wise backward transform: each row is transformed by the operator of its
modulus, in the variable-time variant when `vt` is set — the per-row izip of
`Scaler::scale` (scaler.rs lines 77-84). -/
def applyBackward (vt : Bool) (ops : List TransformOp) (m : List (List Nat)) :
    List (List Nat) :=
  List.zipWith (fun op row => if vt then op.backward_vt row else op.backward row) ops m

/-- Row-wise forward transform, variable-time when `vt` is set — the per-row izip
of `Scaler::scale` (scaler.rs lines 97-113). -/
def applyForward (vt : Bool) (ops : List TransformOp) (m : List (List Nat)) :
    List (List Nat) :=
  List.zipWith (fun op row => if vt then op.forward_vt row else op.forward row) ops m

/-- The common-moduli counting loop of `Scaler::new` (scaler.rs lines 29-35):
walk the two modulus lists in step, counting while the entries agree, stopping at
the first disagreement. -/
def commonPrefixLen : List Nat → List Nat → Nat
  | q :: qs, p :: ps => if q = p then commonPrefixLen qs ps + 1 else 0
  | _, _ => 0

/-- The `Scaler` of scaler.rs lines 12-18.  The Rust field `from` is a reserved
word in Lean and is rendered `from_`. -/
structure Scaler where
  from_ : Context
  to_ : Context
  number_common_moduli : Nat
  scaler : RnsScaler

/-- `Scaler::new` (scaler.rs lines 22-46): count the shared leading moduli (only
when the factor is one), build the RNS kernel, and return `Ok`. -/
def Scaler.new (f t : Context) (factor : ScalingFactor) : Except String Scaler :=
  let number_common_moduli := if factor.is_one then commonPrefixLen f.q t.q else 0
  .ok { from_ := f, to_ := t, number_common_moduli := number_common_moduli,
        scaler := RnsScaler.new f.q t.q factor }

/-- `Scaler::scale` (scaler.rs lines 51-124).  The destination matrix starts as
zeros of shape `(to.q.length, to.degree)`; the leading `number_common_moduli` rows
are copied verbatim from the input; the remaining rows are filled column-by-column
by the RNS kernel, from the power-basis form of the input (obtained, for a
transformed input, by a backward transform of a private copy); for a transformed
input the freshly produced rows are then forward-transformed.  The izip over
destination and source columns runs over the shorter of the two widths
(`min to.degree p.ctx.degree`); destination columns beyond it keep their zeros. -/
def Scaler.scale (s : Scaler) (p : Poly) (floor : Bool) : Except String Poly :=
  if p.ctx.q ≠ s.from_.q then
    .error "The input polynomial does not have the correct context"
  else
    let n := s.number_common_moduli
    let common := p.coefficients.take n
    let pb :=
      if p.representation = Representation.PowerBasis then p.coefficients
      else applyBackward p.allow_variable_time_computations p.ctx.ops p.coefficients
    let ncols := min s.to_.degree p.ctx.degree
    let rest0 := (List.range (s.to_.q.length - n)).map fun k =>
      (List.range s.to_.degree).map fun j =>
        if j < ncols then (s.scaler.scale (colOf pb j) n floor).getD k 0 else 0
    let rest :=
      if p.representation = Representation.PowerBasis then rest0
      else applyForward p.allow_variable_time_computations (s.to_.ops.drop n) rest0
    .ok { ctx := s.to_
          representation := p.representation
          allow_variable_time_computations := p.allow_variable_time_computations
          coefficients := common ++ rest
          coefficients_shoup := none }

/-- The non-common destination rows `Scaler::scale` computes (the let-bound
conversion step of scaler.rs lines 63-114, exposed as a definition for the
theorems): row `k` (destination modulus `number_common_moduli + k`), column `j`
of the freshly produced power-basis rows. -/
def scaleRest (s : Scaler) (p : Poly) (fl : Bool) : List (List Nat) :=
  (List.range (s.to_.q.length - s.number_common_moduli)).map fun k =>
    (List.range s.to_.degree).map fun j =>
      if j < min s.to_.degree p.ctx.degree then
        (s.scaler.scale
          (colOf
            (if p.representation = Representation.PowerBasis then p.coefficients
             else applyBackward p.allow_variable_time_computations p.ctx.ops
               p.coefficients)
            j)
          s.number_common_moduli fl).getD k 0
      else 0

/-- Modelled from the spec: `change_representation` toward power basis (the
section 4.4 state machine; not in the shown sources): a transformed polynomial is
backward-transformed row-wise (variable-time per its flag) and retagged; a
power-basis polynomial is returned unchanged.  The Shoup cache is cleared whenever
the coefficients change (section 3). -/
def Poly.toPowerBasis (p : Poly) : Poly :=
  if p.representation = Representation.Ntt then
    { p with representation := Representation.PowerBasis
             coefficients := applyBackward p.allow_variable_time_computations
               p.ctx.ops p.coefficients
             coefficients_shoup := none }
  else p

/-! Concrete contexts, factors, scalers and polynomials used by the closed
witness and counterexample theorems below.  `ctxA` has modulus product `Q = 15`,
`ctxB` has product `P = 7` (coprime to `Q`), and `ctxC` shares the leading
modulus `3` with `ctxA`. -/

/-- Source context with moduli `[3, 5]` (`Q = 15`), degree 1. -/
def ctxA : Context := { degree := 1, q := [3, 5], ops := [idOp 3, idOp 5] }

/-- Destination context with modulus `[7]` (`P = 7`), degree 1. -/
def ctxB : Context := { degree := 1, q := [7], ops := [idOp 7] }

/-- Destination context with moduli `[3, 11]`, sharing the leading modulus of
`ctxA`, degree 1. -/
def ctxC : Context := { degree := 1, q := [3, 11], ops := [idOp 3, idOp 11] }

/-- The scaling factor `7/1`. -/
def fac71 : ScalingFactor := ScalingFactor.new 7 1

/-- The identity scaling factor `1/1`. -/
def fac11 : ScalingFactor := ScalingFactor.new 1 1

/-- The scaler `Scaler::new(ctxA, ctxB, 7/1)` produces. -/
def sAB : Scaler :=
  { from_ := ctxA, to_ := ctxB, number_common_moduli := 0,
    scaler := RnsScaler.new ctxA.q ctxB.q fac71 }

/-- The scaler `Scaler::new(ctxA, ctxC, 1/1)` produces (one common modulus). -/
def sAC : Scaler :=
  { from_ := ctxA, to_ := ctxC, number_common_moduli := 1,
    scaler := RnsScaler.new ctxA.q ctxC.q fac11 }

/-- The identity scaler `Scaler::new(ctxA, ctxA, 1/1)` produces. -/
def sAA : Scaler :=
  { from_ := ctxA, to_ := ctxA, number_common_moduli := 2,
    scaler := RnsScaler.new ctxA.q ctxA.q fac11 }

/-- A power-basis polynomial of `ctxA` whose single coefficient has residues
`[2, 3]`, i.e. CRT value `8` (which is `≥ Q/2 = 7`). -/
def pA : Poly :=
  { ctx := ctxA, representation := Representation.PowerBasis,
    allow_variable_time_computations := false, coefficients := [[2], [3]],
    coefficients_shoup := none }

/-- A polynomial of `ctxB`: the wrong context for a scaler whose source is
`ctxA`. -/
def pB : Poly :=
  { ctx := ctxB, representation := Representation.PowerBasis,
    allow_variable_time_computations := false, coefficients := [[0]],
    coefficients_shoup := none }

/-- The transformed-representation sibling of `pA`. -/
def pN : Poly :=
  { ctx := ctxA, representation := Representation.Ntt,
    allow_variable_time_computations := false, coefficients := [[2], [3]],
    coefficients_shoup := none }

/-- Like `pA` but carrying a (stale) Shoup constant cache, to exercise the
determinism theorem across polynomials differing only in that cache. -/
def pShoup : Poly :=
  { ctx := ctxA, representation := Representation.PowerBasis,
    allow_variable_time_computations := false, coefficients := [[2], [3]],
    coefficients_shoup := some [[1], [1]] }

/-! Helper lemmas about the common-moduli counting loop. -/

theorem commonPrefixLen_take (qs : List Nat) : ∀ ps : List Nat,
    qs.take (commonPrefixLen qs ps) = ps.take (commonPrefixLen qs ps) := by
  induction qs with
  | nil => intro ps; simp [commonPrefixLen]
  | cons q qs ih =>
    intro ps
    cases ps with
    | nil => simp [commonPrefixLen]
    | cons p ps =>
      by_cases h : q = p
      · simp [commonPrefixLen, h, ih ps]
      · simp [commonPrefixLen, h]

theorem commonPrefixLen_le_left (qs : List Nat) : ∀ ps : List Nat,
    commonPrefixLen qs ps ≤ qs.length := by
  induction qs with
  | nil => intro ps; simp [commonPrefixLen]
  | cons q qs ih =>
    intro ps
    cases ps with
    | nil => simp [commonPrefixLen]
    | cons p ps =>
      by_cases h : q = p
      · simpa [commonPrefixLen, h, Nat.succ_le_succ_iff] using ih ps
      · simp [commonPrefixLen, h]

theorem commonPrefixLen_le_right (qs : List Nat) : ∀ ps : List Nat,
    commonPrefixLen qs ps ≤ ps.length := by
  induction qs with
  | nil => intro ps; simp [commonPrefixLen]
  | cons q qs ih =>
    intro ps
    cases ps with
    | nil => simp [commonPrefixLen]
    | cons p ps =>
      by_cases h : q = p
      · simpa [commonPrefixLen, h, Nat.succ_le_succ_iff] using ih ps
      · simp [commonPrefixLen, h]

theorem le_commonPrefixLen_of_take_eq (qs : List Nat) : ∀ (ps : List Nat) (m : Nat),
    m ≤ qs.length → m ≤ ps.length → qs.take m = ps.take m →
    m ≤ commonPrefixLen qs ps := by
  induction qs with
  | nil =>
    intro ps m hq _ _
    simp only [List.length_nil, Nat.le_zero] at hq
    simp [hq]
  | cons q qs ih =>
    intro ps m hq hp htake
    cases ps with
    | nil =>
      simp only [List.length_nil, Nat.le_zero] at hp
      simp [hp]
    | cons p ps =>
      cases m with
      | zero => exact Nat.zero_le _
      | succ m =>
        simp only [List.take_succ_cons, List.cons.injEq] at htake
        obtain ⟨h1, h2⟩ := htake
        simp only [commonPrefixLen, h1, if_pos]
        exact Nat.succ_le_succ
          (ih ps m (by simpa using hq) (by simpa using hp) h2)

theorem commonPrefixLen_self (qs : List Nat) : commonPrefixLen qs qs = qs.length := by
  induction qs with
  | nil => simp [commonPrefixLen]
  | cons q qs ih => simp [commonPrefixLen, ih]

/-- Inverting `Scaler::new`: the scaler it returns, field by field. -/
theorem scaler_new_inv (f t : Context) (fac : ScalingFactor) (s : Scaler)
    (hnew : Scaler.new f t fac = Except.ok s) :
    s = { from_ := f, to_ := t,
          number_common_moduli := if fac.is_one then commonPrefixLen f.q t.q else 0,
          scaler := RnsScaler.new f.q t.q fac } := by
  simpa [Scaler.new] using hnew.symm

/-- C10: `Scaler::new` never returns an error: for every pair of contexts —
however mismatched — and every scaling factor, it returns `Ok`; its `Result`
return type has no error path. -/
theorem scaler_new_total (f t : Context) (fac : ScalingFactor) :
    ∃ s, Scaler.new f t fac = Except.ok s := ⟨_, rfl⟩

/-- C4: `Scaler::new` stores as `number_common_moduli` the length of the longest
shared leading segment of the two modulus sequences when `factor.is_one` holds
(it is a common take of both, bounded by both lengths, and maximal among common
takes), and stores exactly `0` whenever `factor.is_one` is false. -/
theorem scaler_new_common_moduli (f t : Context) (fac : ScalingFactor) (s : Scaler)
    (hnew : Scaler.new f t fac = Except.ok s) :
    (fac.is_one = true →
        f.q.take s.number_common_moduli = t.q.take s.number_common_moduli ∧
        s.number_common_moduli ≤ f.q.length ∧
        s.number_common_moduli ≤ t.q.length ∧
        ∀ m, m ≤ f.q.length → m ≤ t.q.length → f.q.take m = t.q.take m →
          m ≤ s.number_common_moduli) ∧
      (fac.is_one = false → s.number_common_moduli = 0) := by
  have hs := scaler_new_inv f t fac s hnew
  subst hs
  constructor
  · intro hone
    simp only [hone, if_pos]
    exact ⟨commonPrefixLen_take f.q t.q, commonPrefixLen_le_left f.q t.q,
      commonPrefixLen_le_right f.q t.q, le_commonPrefixLen_of_take_eq f.q t.q⟩
  · intro hzero
    simp [hzero]

/-- Closed witness for C4 at `ctxA`/`ctxC` with factor `1/1`: the stored count is
a common take and at least `1` (the shared leading modulus `3`). -/
theorem scaler_new_common_moduli_witness :
    ctxA.q.take sAC.number_common_moduli = ctxC.q.take sAC.number_common_moduli ∧
      1 ≤ sAC.number_common_moduli :=
  have h := (scaler_new_common_moduli ctxA ctxC fac11 sAC rfl).1 rfl
  ⟨h.1, h.2.2.2 1 (by decide) (by decide) (by decide)⟩

/-- C3: `Scaler::scale` returns the context-mismatch error exactly when the input
polynomial's modulus sequence differs from the scaler's source context's (the
structural context equality of section 3), and returns `Ok` whenever they agree.
The embedding is a pure function of the borrowed input, so the erroring path
observably touches neither the input polynomial nor any shared state. -/
theorem scale_context_mismatch (s : Scaler) (p : Poly) (fl : Bool) :
    (s.scale p fl =
        Except.error "The input polynomial does not have the correct context" ↔
      p.ctx.q ≠ s.from_.q) ∧
      (p.ctx.q = s.from_.q → ∃ r, s.scale p fl = Except.ok r) := by
  by_cases h : p.ctx.q = s.from_.q
  · refine ⟨⟨fun he => ?_, fun hne => absurd h hne⟩, fun _ => ?_⟩
    · rw [Scaler.scale, if_neg (by simp [h])] at he
      exact absurd he (by simp)
    · exact ⟨_, by rw [Scaler.scale, if_neg (by simp [h])]⟩
  · refine ⟨⟨fun _ => h, fun _ => ?_⟩, fun hq => absurd hq h⟩
    rw [Scaler.scale, if_pos h]

/-- Closed witness for C3: `sAB` rejects a polynomial of `ctxB` with the
context-mismatch error and accepts a polynomial of `ctxA`. -/
theorem scale_context_mismatch_witness :
    sAB.scale pB true =
        Except.error "The input polynomial does not have the correct context" ∧
      ∃ r, sAB.scale pA true = Except.ok r :=
  ⟨(scale_context_mismatch sAB pB true).1.mpr (by decide),
    (scale_context_mismatch sAB pA true).2 (by decide)⟩

/-- C9: `Scaler::scale` is deterministic, and its output depends only on the
input's coefficients, representation tag, context and variable-time flag: two
inputs agreeing on those (they may differ in the Shoup constant cache) yield
bit-identical results for the same `floor` argument. -/
theorem scale_deterministic (s : Scaler) (p1 p2 : Poly) (fl : Bool)
    (hco : p1.coefficients = p2.coefficients)
    (hre : p1.representation = p2.representation)
    (hcx : p1.ctx = p2.ctx)
    (hvt : p1.allow_variable_time_computations =
      p2.allow_variable_time_computations) :
    s.scale p1 fl = s.scale p2 fl := by
  obtain ⟨c1, r1, v1, m1, sh1⟩ := p1
  obtain ⟨c2, r2, v2, m2, sh2⟩ := p2
  simp only at hco hre hcx hvt
  subst hco; subst hre; subst hcx; subst hvt
  rfl

/-- Closed witness for C9: `pA` and `pShoup` differ only in the Shoup cache and
scale identically. -/
theorem scale_deterministic_witness :
    sAB.scale pA true = sAB.scale pShoup true :=
  scale_deterministic sAB pA pShoup true rfl rfl rfl rfl

/-! Helper lemmas about the row-wise transforms. -/

theorem forwardRun_length (op : TransformOp) (vt : Bool) (row : List Nat) :
    (if vt then op.forward_vt row else op.forward row).length = row.length := by
  cases vt <;> simp [op.forward_vt_eq, op.forward_length]

theorem backwardRun_length (op : TransformOp) (vt : Bool) (row : List Nat) :
    (if vt then op.backward_vt row else op.backward row).length = row.length := by
  cases vt <;> simp [op.backward_vt_eq, op.backward_length]

theorem applyForward_eq_constant (vt : Bool) (ops : List TransformOp) :
    ∀ m, applyForward vt ops m = List.zipWith (fun op row => op.forward row) ops m := by
  induction ops with
  | nil => intro m; simp [applyForward]
  | cons op ops ih =>
    intro m
    cases m with
    | nil => simp [applyForward]
    | cons row m =>
      simp only [applyForward, List.zipWith_cons_cons] at ih ⊢
      rw [ih m]
      cases vt <;> simp [op.forward_vt_eq]

theorem applyBackward_eq_constant (vt : Bool) (ops : List TransformOp) :
    ∀ m, applyBackward vt ops m =
      List.zipWith (fun op row => op.backward row) ops m := by
  induction ops with
  | nil => intro m; simp [applyBackward]
  | cons op ops ih =>
    intro m
    cases m with
    | nil => simp [applyBackward]
    | cons row m =>
      simp only [applyBackward, List.zipWith_cons_cons] at ih ⊢
      rw [ih m]
      cases vt <;> simp [op.backward_vt_eq]

theorem mem_applyForward_length (vt : Bool) (ops : List TransformOp) :
    ∀ (m : List (List Nat)) (d : Nat), (∀ row ∈ m, row.length = d) →
      ∀ r ∈ applyForward vt ops m, r.length = d := by
  induction ops with
  | nil => intro m d _ r hr; simp [applyForward] at hr
  | cons op ops ih =>
    intro m d hm r hr
    cases m with
    | nil => simp [applyForward] at hr
    | cons row m =>
      simp only [applyForward, List.zipWith_cons_cons, List.mem_cons] at hr
      rcases hr with hr | hr
      · subst hr
        rw [forwardRun_length op vt row]
        exact hm row (by simp)
      · exact ih m d (fun x hx => hm x (by simp [hx])) r hr

theorem mem_applyBackward_length (vt : Bool) (ops : List TransformOp) :
    ∀ (m : List (List Nat)) (d : Nat), (∀ row ∈ m, row.length = d) →
      ∀ r ∈ applyBackward vt ops m, r.length = d := by
  induction ops with
  | nil => intro m d _ r hr; simp [applyBackward] at hr
  | cons op ops ih =>
    intro m d hm r hr
    cases m with
    | nil => simp [applyBackward] at hr
    | cons row m =>
      simp only [applyBackward, List.zipWith_cons_cons, List.mem_cons] at hr
      rcases hr with hr | hr
      · subst hr
        rw [backwardRun_length op vt row]
        exact hm row (by simp)
      · exact ih m d (fun x hx => hm x (by simp [hx])) r hr

/-- The successful branch of `Scaler::scale`, with the let-bound pieces exposed. -/
theorem scale_eq_ok (s : Scaler) (p : Poly) (fl : Bool) (h : p.ctx.q = s.from_.q) :
    s.scale p fl = Except.ok
      { ctx := s.to_
        representation := p.representation
        allow_variable_time_computations := p.allow_variable_time_computations
        coefficients :=
          p.coefficients.take s.number_common_moduli ++
            (if p.representation = Representation.PowerBasis then
              scaleRest s p fl
            else
              applyForward p.allow_variable_time_computations
                (s.to_.ops.drop s.number_common_moduli) (scaleRest s p fl))
        coefficients_shoup := none } := by
  rw [Scaler.scale, if_neg (by simp [h])]
  rfl

theorem scaleRest_length (s : Scaler) (p : Poly) (fl : Bool) :
    (scaleRest s p fl).length = s.to_.q.length - s.number_common_moduli := by
  simp [scaleRest]

theorem scaleRest_row_length (s : Scaler) (p : Poly) (fl : Bool) :
    ∀ r ∈ scaleRest s p fl, r.length = s.to_.degree := by
  intro r hr
  simp only [scaleRest, List.mem_map] at hr
  obtain ⟨k, _, rfl⟩ := hr
  simp

/-- The components of a successful `Scaler::scale` result. -/
theorem scale_coeffs (s : Scaler) (p : Poly) (fl : Bool)
    (h : p.ctx.q = s.from_.q) :
    ∃ res, s.scale p fl = Except.ok res ∧
      res.ctx = s.to_ ∧
      res.representation = p.representation ∧
      res.allow_variable_time_computations = p.allow_variable_time_computations ∧
      res.coefficients_shoup = none ∧
      res.coefficients =
        p.coefficients.take s.number_common_moduli ++
          (if p.representation = Representation.PowerBasis then scaleRest s p fl
           else applyForward p.allow_variable_time_computations
             (s.to_.ops.drop s.number_common_moduli) (scaleRest s p fl)) :=
  ⟨_, scale_eq_ok s p fl h, rfl, rfl, rfl, rfl, rfl⟩

/-- C5: when the factor is one and the contexts share a nonzero-length leading
modulus segment, the leading `number_common_moduli` rows of the scaled result
equal the corresponding rows of the input verbatim, for either rounding mode and
either representation. -/
theorem scale_common_rows (f t : Context) (fac : ScalingFactor) (s : Scaler)
    (hnew : Scaler.new f t fac = Except.ok s) (hone : fac.is_one = true)
    (hpos : 0 < commonPrefixLen f.q t.q)
    (p : Poly) (fl : Bool) (hctx : p.ctx.q = f.q) (hwf : PolyWF p) :
    ∃ res, s.scale p fl = Except.ok res ∧
      0 < s.number_common_moduli ∧
      res.coefficients.take s.number_common_moduli =
        p.coefficients.take s.number_common_moduli := by
  have hsinv := scaler_new_inv f t fac s hnew
  have hfrom : s.from_ = f := by rw [hsinv]
  have hn : s.number_common_moduli = commonPrefixLen f.q t.q := by
    rw [hsinv]; simp [hone]
  obtain ⟨res, hok, _, _, _, _, hco⟩ := scale_coeffs s p fl (by rw [hctx, hfrom])
  have hb : s.number_common_moduli ≤ p.coefficients.length := by
    rw [hn, hwf.1, hctx]
    exact commonPrefixLen_le_left f.q t.q
  refine ⟨res, hok, ?_, ?_⟩
  · rw [hn]; exact hpos
  · rw [hco, List.take_append_of_le_length (by rw [List.length_take]; omega),
      List.take_take, Nat.min_self]

/-- Closed witness for C5: scaling `pA` through `sAC` (factor `1/1`, one shared
modulus) preserves the leading row `[2]`. -/
theorem scale_common_rows_witness :
    ∃ res, sAC.scale pA true = Except.ok res ∧
      0 < sAC.number_common_moduli ∧
      res.coefficients.take sAC.number_common_moduli =
        pA.coefficients.take sAC.number_common_moduli :=
  scale_common_rows ctxA ctxC fac11 sAC rfl rfl (by decide) pA true rfl
    ⟨rfl, by decide⟩

/-- C6: identity scaling — `from == to` and factor `1/1` — returns a polynomial
with exactly the input's residue matrix, for either rounding mode and either
representation. -/
theorem scale_identity (ctx : Context) (s : Scaler)
    (hnew : Scaler.new ctx ctx (ScalingFactor.new 1 1) = Except.ok s)
    (p : Poly) (fl : Bool) (hctx : p.ctx.q = ctx.q) (hwf : PolyWF p) :
    ∃ res, s.scale p fl = Except.ok res ∧ res.coefficients = p.coefficients := by
  have hsinv := scaler_new_inv ctx ctx (ScalingFactor.new 1 1) s hnew
  have hfrom : s.from_ = ctx := by rw [hsinv]
  have hto : s.to_ = ctx := by rw [hsinv]
  have hn : s.number_common_moduli = ctx.q.length := by
    rw [hsinv]; simp [ScalingFactor.new, commonPrefixLen_self]
  obtain ⟨res, hok, _, _, _, _, hco⟩ := scale_coeffs s p fl (by rw [hctx, hfrom])
  refine ⟨res, hok, ?_⟩
  have hrest : scaleRest s p fl = [] := by
    rw [← List.length_eq_zero, scaleRest_length, hto, hn]
    omega
  have htake : p.coefficients.take s.number_common_moduli = p.coefficients := by
    apply List.take_of_length_le
    rw [hwf.1, hctx, hn]
  rw [hco, hrest, htake]
  simp [applyForward]

/-- Closed witness for C6: the identity scaler `sAA` reproduces `pA`'s matrix. -/
theorem scale_identity_witness :
    ∃ res, sAA.scale pA true = Except.ok res ∧
      res.coefficients = pA.coefficients :=
  scale_identity ctxA sAA rfl pA true rfl ⟨rfl, by decide⟩

/-- C7: a successful `Scaler::scale` returns a polynomial bound to the
destination context, carrying the input's representation tag and variable-time
flag, with no Shoup cache, and with a residue matrix of shape
`(to.q.length, to.degree)`. -/
theorem scale_result_form (f t : Context) (fac : ScalingFactor) (s : Scaler)
    (hnew : Scaler.new f t fac = Except.ok s)
    (p : Poly) (fl : Bool) (hctx : p.ctx.q = f.q) (hwf : PolyWF p)
    (hdeg : p.ctx.degree = t.degree)
    (hops : t.ops.length = t.q.length) :
    ∃ res, s.scale p fl = Except.ok res ∧
      res.ctx = t ∧
      res.representation = p.representation ∧
      res.allow_variable_time_computations = p.allow_variable_time_computations ∧
      res.coefficients_shoup = none ∧
      res.coefficients.length = t.q.length ∧
      ∀ row ∈ res.coefficients, row.length = t.degree := by
  have hsinv := scaler_new_inv f t fac s hnew
  have hfrom : s.from_ = f := by rw [hsinv]
  have hto : s.to_ = t := by rw [hsinv]
  have hnle : s.number_common_moduli ≤ t.q.length := by
    rw [hsinv]
    cases h1 : fac.is_one
    · simp
    · simp only [if_pos]
      exact commonPrefixLen_le_right f.q t.q
  have hnlep : s.number_common_moduli ≤ p.coefficients.length := by
    rw [hsinv, hwf.1, hctx]
    cases h1 : fac.is_one
    · simp
    · simp only [if_pos]
      exact commonPrefixLen_le_left f.q t.q
  obtain ⟨res, hok, h1, h2, h3, h4, hco⟩ := scale_coeffs s p fl (by rw [hctx, hfrom])
  refine ⟨res, hok, by rw [h1, hto], h2, h3, h4, ?_, ?_⟩
  · rw [hco, List.length_append, List.length_take, Nat.min_eq_left hnlep]
    cases hrp : p.representation with
    | PowerBasis =>
      rw [if_pos rfl, scaleRest_length, hto]
      omega
    | Ntt =>
      rw [if_neg (by simp), applyForward_eq_constant, List.length_zipWith,
        scaleRest_length, List.length_drop, hto, hops]
      omega
  · intro row hrow
    rw [hco] at hrow
    rcases List.mem_append.mp hrow with hmem | hmem
    · rw [hwf.2 row (List.mem_of_mem_take hmem), hdeg]
    · have hwidths : ∀ r ∈ scaleRest s p fl, r.length = t.degree := by
        intro r hr
        have hl := scaleRest_row_length s p fl r hr
        rwa [hto] at hl
      cases hrp : p.representation with
      | PowerBasis =>
        rw [hrp, if_pos rfl] at hmem
        exact hwidths row hmem
      | Ntt =>
        rw [hrp, if_neg (by simp)] at hmem
        exact mem_applyForward_length _ _ _ _ hwidths row hmem

/-! Number-theoretic facts about `modInv` and `crtRec`. -/

theorem modInv_spec (a M : Nat) (hM : 1 < M) (h : Nat.Coprime a M) :
    a * modInv a M % M = 1 := by
  obtain ⟨b, hb⟩ := Nat.exists_mul_emod_eq_one_of_coprime h hM
  have hmod : a * (b % M) % M = 1 := by
    have hme : a * (b % M) % M = a * b % M :=
      Nat.ModEq.mul_left a (Nat.mod_modEq b M)
    rw [hme, hb]
  have hex : ∃ c ∈ List.range M, (fun c => a * c % M == 1) c = true :=
    ⟨b % M, List.mem_range.mpr (Nat.mod_lt _ (by omega)), by simpa using hmod⟩
  obtain ⟨c, hc⟩ :=
    Option.isSome_iff_exists.mp (List.find?_isSome.mpr hex)
  have hcp := List.find?_some hc
  rw [modInv, hc, Option.getD_some]
  simpa using hcp

theorem coprime_list_prod (k : Nat) : ∀ l : List Nat,
    (∀ x ∈ l, Nat.Coprime k x) → Nat.Coprime k l.prod := by
  intro l
  induction l with
  | nil => intro _; simp [Nat.coprime_one_right]
  | cons x l ih =>
    intro h
    rw [List.prod_cons]
    exact Nat.Coprime.mul_right (h x (by simp)) (ih fun y hy => h y (by simp [hy]))

theorem emod_toNat_cast (v : Int) (m : Nat) (hm : 0 < m) :
    (((v % (m : Int)).toNat : Int)) = v % (m : Int) :=
  Int.toNat_of_nonneg (Int.emod_nonneg v (by exact_mod_cast hm.ne'))

theorem emod_toNat_lt (v : Int) (m : Nat) (hm : 0 < m) :
    (v % (m : Int)).toNat < m := by
  have h1 := Int.emod_lt_of_pos v (show (0 : Int) < (m : Int) by exact_mod_cast hm)
  have h2 := Int.emod_nonneg v
    (show (m : Int) ≠ 0 by exact_mod_cast hm.ne')
  omega

/-- The single combination step of `crtRec`: combining the residue of `v` modulo
`q` with its residue modulo `M` (coprime to `q`) yields its residue modulo
`q * M`. -/
theorem crt_cons_step (v : Int) (q M : Nat) (hq1 : 1 < q) (hM1 : 1 < M)
    (hcop : Nat.Coprime q M) :
    (v % (q : Int)).toNat + q *
        (((((v % (M : Int)).toNat : Int) - (((v % (q : Int)).toNat : Nat) : Int)) *
            (modInv (q % M) M : Int)) % (M : Int)).toNat =
      (v % ((q * M : Nat) : Int)).toNat := by
  have hq0 : 0 < q := by omega
  have hM0 : 0 < M := by omega
  have hqM0 : 0 < q * M := Nat.mul_pos hq0 hM0
  set R : Nat := (v % (q : Int)).toNat with hR
  set Y : Nat := (v % (M : Int)).toNat with hY
  set w : Nat := (v % ((q * M : Nat) : Int)).toNat with hw
  set inv : Nat := modInv (q % M) M with hinv
  -- the combined value, its residues, and its quotient by q
  have hwcast : ((w : Nat) : Int) = v % ((q * M : Nat) : Int) :=
    emod_toNat_cast v (q * M) hqM0
  have hwlt : w < q * M := emod_toNat_lt v (q * M) hqM0
  have hdq : ((q : Int)) ∣ ((q * M : Nat) : Int) := ⟨(M : Int), by push_cast; ring⟩
  have hdM : ((M : Int)) ∣ ((q * M : Nat) : Int) := ⟨(q : Int), by push_cast; ring⟩
  have hwq : w % q = R := by
    have h1 : ((w : Int)) % (q : Int) = v % (q : Int) := by
      rw [hwcast, Int.emod_emod_of_dvd v hdq]
    have h2 : (((w % q : Nat)) : Int) = ((R : Nat) : Int) := by
      push_cast
      rw [h1, hR, emod_toNat_cast v q hq0]
    exact_mod_cast h2
  have hwM : w % M = Y := by
    have h1 : ((w : Int)) % (M : Int) = v % (M : Int) := by
      rw [hwcast, Int.emod_emod_of_dvd v hdM]
    have h2 : (((w % M : Nat)) : Int) = ((Y : Nat) : Int) := by
      push_cast
      rw [h1, hY, emod_toNat_cast v M hM0]
    exact_mod_cast h2
  set S : Nat := w / q with hS
  have hws : q * S + R = w := by rw [hS, ← hwq]; exact Nat.div_add_mod w q
  have hSlt : S < M := by
    rw [hS]
    exact Nat.div_lt_of_lt_mul (by omega)
  -- the congruence identifying the inner factor with S
  have hYlt : Y < M := emod_toNat_lt v M hM0
  have hqco : Nat.Coprime (q % M) M := by
    have : Nat.gcd (q % M) M = Nat.gcd q M := by
      rw [← Nat.gcd_rec, Nat.gcd_comm]
    rwa [Nat.Coprime, this]
  have hinv1 : (q % M) * inv % M = 1 := modInv_spec (q % M) M hM1 hqco
  have hqinv : ((q : Int)) * (inv : Int) ≡ 1 [ZMOD (M : Int)] := by
    have h1 : ((q % M : Nat) : Int) * (inv : Int) ≡ 1 [ZMOD (M : Int)] := by
      have : (((q % M) * inv % M : Nat) : Int) = ((1 : Nat) : Int) := by
        exact_mod_cast congrArg (fun x : Nat => (x : Int)) hinv1
      have h2 : (((q % M) * inv : Nat) : Int) % (M : Int) =
          (1 : Int) % (M : Int) := by
        push_cast at this ⊢
        rw [this]
        exact (Int.emod_eq_of_lt (by omega) (by exact_mod_cast hM1)).symm
      simpa [Int.ModEq] using h2
    have h3 : ((q : Int)) ≡ ((q % M : Nat) : Int) [ZMOD (M : Int)] := by
      have h4 : ((q % M : Nat) : Int) = (q : Int) % (M : Int) := by push_cast; rfl
      rw [h4]
      exact (Int.emod_emod_of_dvd (q : Int) dvd_rfl).symm
    exact (h3.mul_right _).trans h1
  have hqS : ((q : Int)) * (S : Int) ≡ (Y : Int) - (R : Int) [ZMOD (M : Int)] := by
    have h1 : ((q : Int)) * (S : Int) + (R : Int) ≡ (Y : Int) [ZMOD (M : Int)] := by
      have hwsInt : ((q : Int)) * (S : Int) + (R : Int) = (w : Int) := by
        exact_mod_cast congrArg (fun x : Nat => (x : Int)) hws
      rw [hwsInt]
      have h2 : (((w % M : Nat)) : Int) = ((Y : Nat) : Int) := by
        exact_mod_cast congrArg (fun x : Nat => (x : Int)) hwM
      push_cast at h2
      show ((w : Int)) % (M : Int) = (Y : Int) % (M : Int)
      rw [h2]
      exact (Int.emod_eq_of_lt (Int.natCast_nonneg Y)
        (by exact_mod_cast hYlt)).symm
    have h2 := h1.sub_right (R : Int)
    simpa using h2
  have hSeq : ((S : Nat) : Int) ≡ ((Y : Int) - (R : Int)) * (inv : Int)
      [ZMOD (M : Int)] := by
    calc ((S : Nat) : Int) = (S : Int) * 1 := by ring
    _ ≡ (S : Int) * ((q : Int) * (inv : Int)) [ZMOD (M : Int)] :=
        hqinv.symm.mul_left (S : Int)
    _ = ((q : Int) * (S : Int)) * (inv : Int) := by ring
    _ ≡ ((Y : Int) - (R : Int)) * (inv : Int) [ZMOD (M : Int)] :=
        hqS.mul_right (inv : Int)
  -- conclude: the inner toNat equals S
  have hT : ((((Y : Int) - (R : Int)) * (inv : Int)) % (M : Int)).toNat = S := by
    have h1 : (((Y : Int) - (R : Int)) * (inv : Int)) % (M : Int) =
        ((S : Nat) : Int) % (M : Int) := hSeq.symm
    have h2 : ((S : Nat) : Int) % (M : Int) = ((S : Nat) : Int) :=
      Int.emod_eq_of_lt (by positivity) (by exact_mod_cast hSlt)
    rw [h1, h2]
    exact Int.toNat_natCast S
  rw [hT]
  omega

/-- Correctness of the iterated CRT combination: on the residue vector of an
integer `v`, `crtRec` returns `v` reduced modulo the product of the (pairwise
coprime) moduli. -/
theorem crtRec_emod (v : Int) : ∀ ms : List Nat, (∀ m ∈ ms, 1 < m) →
    ms.Pairwise Nat.Coprime →
    crtRec ms (ms.map fun (m : Nat) => (v % (m : Int)).toNat) =
      (v % (ms.prod : Int)).toNat := by
  intro ms
  induction ms with
  | nil => intro _ _; simp [crtRec]
  | cons q qs ih =>
    intro hgt hco
    have hq1 : 1 < q := hgt q (by simp)
    have hqs1 : ∀ m ∈ qs, 1 < m := fun m hm => hgt m (by simp [hm])
    have hpair : qs.Pairwise Nat.Coprime := (List.pairwise_cons.mp hco).2
    have hcoq : ∀ x ∈ qs, Nat.Coprime q x := (List.pairwise_cons.mp hco).1
    have hy := ih hqs1 hpair
    simp only [List.map_cons, crtRec, List.prod_cons]
    rw [hy]
    have hMpos : 0 < qs.prod :=
      List.prod_pos fun a ha => Nat.lt_of_lt_of_le Nat.zero_lt_one
        (Nat.le_of_lt (hqs1 a ha))
    rcases Nat.lt_or_ge 1 qs.prod with hM1 | hM1
    · exact crt_cons_step v q qs.prod hq1 hM1
        (coprime_list_prod q qs hcoq)
    · have hMeq : qs.prod = 1 := by omega
      rw [hMeq]
      simp [Int.emod_one]

/-- Euclidean division of a negated natural cast by a positive natural cast is
the negated ceiling: `(-a) / b = -((a + b - 1) / b)`. -/
theorem neg_natCast_ediv (a b : Nat) (hb : 0 < b) :
    (-(a : Int)) / (b : Int) = -(((a + b - 1) / b : Nat) : Int) := by
  set c : Nat := (a + b - 1) / b with hc
  have hdm : b * c + (a + b - 1) % b = a + b - 1 := Nat.div_add_mod (a + b - 1) b
  have hrlt : (a + b - 1) % b < b := Nat.mod_lt _ hb
  have h1 : a ≤ b * c := by omega
  have h2 : b * c < a + b := by omega
  have h1i : (a : Int) ≤ (b : Int) * c := by exact_mod_cast h1
  have h2i : (b : Int) * c < (a : Int) + b := by exact_mod_cast h2
  have key : (-(a : Int)) = ((b : Int) * c - a) + (b : Int) * (-(c : Int)) := by ring
  rw [key, Int.add_mul_ediv_left _ _ (show (b : Int) ≠ 0 by exact_mod_cast hb.ne')]
  have h3 : ((b : Int) * c - a) / (b : Int) = 0 :=
    Int.ediv_eq_zero_of_lt (by omega) (by omega)
  rw [h3]
  ring

/-- The canonical residue of a negated natural cast: `(-y) mod P` is
`(P - y mod P) mod P`. -/
theorem neg_natCast_emod (y P : Nat) (hP : 0 < P) :
    ((-(y : Int)) % (P : Int)).toNat = (P - y % P) % P := by
  set r : Nat := y % P with hrdef
  set k : Nat := y / P with hkdef
  have hdm : P * k + r = y := Nat.div_add_mod y P
  have hr : r < P := Nat.mod_lt _ hP
  have hcast : (y : Int) = (P : Int) * k + r := by exact_mod_cast hdm.symm
  have hkey : (-(y : Int)) = ((P : Int) - r) + (P : Int) * (-(k : Int) - 1) := by
    rw [hcast]; ring
  rw [hkey, Int.add_mul_emod_self_left]
  rcases Nat.eq_zero_or_pos r with h0 | hpos
  · rw [h0]
    simp
  · have h1 : ((P : Int) - r) % P = (P : Int) - r :=
      Int.emod_eq_of_lt (by omega) (by omega)
    have h2 : (P - r) % P = P - r := Nat.mod_eq_of_lt (by omega)
    rw [h1, h2]
    omega

/-- Two modulus chains with coprime products (and nontrivial moduli) share no
leading moduli, so the counting loop of `Scaler::new` returns `0`. -/
theorem commonPrefixLen_eq_zero (qs ps : List Nat) (h1 : ∀ m ∈ qs, 1 < m)
    (hco : Nat.Coprime qs.prod ps.prod) : commonPrefixLen qs ps = 0 := by
  cases qs with
  | nil => rfl
  | cons q qs =>
    cases ps with
    | nil => rfl
    | cons p ps =>
      by_cases h : q = p
      · exfalso
        subst h
        have hdq : q ∣ (q :: qs).prod := List.dvd_prod (by simp)
        have hdp : q ∣ (q :: ps).prod := List.dvd_prod (by simp)
        have hone : q ∣ 1 := hco.gcd_eq_one ▸ Nat.dvd_gcd hdq hdp
        have := Nat.dvd_one.mp hone
        have := h1 q (by simp)
        omega
      · simp [commonPrefixLen, h]

/-- The kernel's scaled value in floor mode, written through the centered
floor/ceiling formulas of the section 8 test oracle. -/
theorem scaledVal_floor (r : RnsScaler) (column : List Nat)
    (hd : 0 < r.factor.denominator)
    (hx : crtRec r.from_moduli column < r.from_moduli.prod) :
    r.scaledVal column true =
      if r.from_moduli.prod / 2 ≤ crtRec r.from_moduli column then
        -((((r.from_moduli.prod - crtRec r.from_moduli column) *
              r.factor.numerator + r.factor.denominator - 1) /
            r.factor.denominator : Nat) : Int)
      else
        (((crtRec r.from_moduli column * r.factor.numerator /
            r.factor.denominator : Nat)) : Int) := by
  rcases Nat.lt_or_ge (crtRec r.from_moduli column) (r.from_moduli.prod / 2)
    with hlt | hge
  · have h1 : ¬ (r.from_moduli.prod / 2 ≤ crtRec r.from_moduli column) := by omega
    rw [if_neg h1]
    simp [RnsScaler.scaledVal, if_neg h1]
  · rw [if_pos hge]
    have hstep : r.scaledVal column true =
        (-(((r.from_moduli.prod - crtRec r.from_moduli column) *
            r.factor.numerator : Nat) : Int)) / (r.factor.denominator : Int) := by
      have hc : ((crtRec r.from_moduli column : Int) -
            (r.from_moduli.prod : Int)) * (r.factor.numerator : Int) =
          -((((r.from_moduli.prod - crtRec r.from_moduli column) *
            r.factor.numerator : Nat) : Int)) := by
        push_cast [Nat.le_of_lt hx]
        ring
      simp only [RnsScaler.scaledVal, if_pos hge, if_true]
      rw [hc]
    rw [hstep, neg_natCast_ediv _ _ hd]

theorem getD_map_range (n j : Nat) (g : Nat → Nat) (d : Nat) (hj : j < n) :
    ((List.range n).map g).getD j d = g j := by
  have h1 : j < ((List.range n).map g).length := by simpa using hj
  rw [List.getD_eq_getElem _ d h1]
  simp

theorem getD_map_range_list (n j : Nat) (g : Nat → List Nat) (d : List Nat)
    (hj : j < n) : ((List.range n).map g).getD j d = g j := by
  have h1 : j < ((List.range n).map g).length := by simpa using hj
  rw [List.getD_eq_getElem _ d h1]
  simp

theorem map_range_getD (l : List Nat) (d : Nat) :
    (List.range l.length).map (fun k => l.getD k d) = l := by
  apply List.ext_getElem
  · simp
  · intro i h1 h2
    simp only [List.getElem_map, List.getElem_range]
    rw [List.getD_eq_getElem l d h2]

theorem rnsscale_length (r : RnsScaler) (c : List Nat) (fl : Bool) :
    (r.scale c 0 fl).length = r.to_moduli.length := by
  simp [RnsScaler.scale]

/-- A column of the kernel-produced rows, in the no-common-moduli case: it is the
kernel output for the corresponding source column. -/
theorem colOf_scaleRest (s : Scaler) (p : Poly) (fl : Bool) (j : Nat)
    (hj : j < s.to_.degree) (hdeg : p.ctx.degree = s.to_.degree)
    (hn0 : s.number_common_moduli = 0)
    (hlen : s.scaler.to_moduli.length = s.to_.q.length) :
    colOf (scaleRest s p fl) j =
      s.scaler.scale
        (colOf
          (if p.representation = Representation.PowerBasis then p.coefficients
           else applyBackward p.allow_variable_time_computations p.ctx.ops
             p.coefficients)
          j)
        0 fl := by
  have hmin : min s.to_.degree p.ctx.degree = s.to_.degree := by
    rw [hdeg, Nat.min_self]
  simp only [scaleRest, colOf, hn0, Nat.sub_zero, List.map_map]
  have hpt : ∀ k ∈ List.range s.to_.q.length,
      ((fun row => row.getD j 0) ∘ fun k =>
        (List.range s.to_.degree).map fun j =>
          if j < min s.to_.degree p.ctx.degree then
            (s.scaler.scale
              (List.map (fun row => row.getD j 0)
                (if p.representation = Representation.PowerBasis then p.coefficients
                 else applyBackward p.allow_variable_time_computations p.ctx.ops
                   p.coefficients))
              0 fl).getD k 0
          else 0) k =
      (s.scaler.scale
        (List.map (fun row => row.getD j 0)
          (if p.representation = Representation.PowerBasis then p.coefficients
           else applyBackward p.allow_variable_time_computations p.ctx.ops
             p.coefficients))
        0 fl).getD k 0 := by
    intro k _
    simp only [Function.comp]
    rw [getD_map_range _ _ _ _ hj]
    rw [hmin, if_pos hj]
  rw [List.map_congr_left hpt]
  have hfin := map_range_getD
    (s.scaler.scale
      (List.map (fun row => row.getD j 0)
        (if p.representation = Representation.PowerBasis then p.coefficients
         else applyBackward p.allow_variable_time_computations p.ctx.ops
           p.coefficients))
      0 fl) 0
  rw [rnsscale_length, hlen] at hfin
  exact hfin

/-- One kernel column in floor mode, as a CRT value: the centered floor-scaling
formula, with the sign flip through the destination modulus product taken as a
canonical residue (the final reduction modulo `P`). -/
theorem c1_column (r : RnsScaler) (column : List Nat) (i : Nat)
    (hgt : ∀ m ∈ r.to_moduli, 1 < m) (hco : r.to_moduli.Pairwise Nat.Coprime)
    (hd : 0 < r.factor.denominator)
    (hxi : crtRec r.from_moduli column = i) (hi : i < r.from_moduli.prod) :
    crtRec r.to_moduli (r.scale column 0 true) =
      if r.from_moduli.prod / 2 ≤ i then
        (r.to_moduli.prod -
            ((r.from_moduli.prod - i) * r.factor.numerator +
              r.factor.denominator - 1) / r.factor.denominator %
            r.to_moduli.prod) % r.to_moduli.prod
      else
        i * r.factor.numerator / r.factor.denominator % r.to_moduli.prod := by
  have hP : 0 < r.to_moduli.prod :=
    List.prod_pos fun a ha => by have := hgt a ha; omega
  have hscale : r.scale column 0 true =
      r.to_moduli.map fun (m : Nat) =>
        ((r.scaledVal column true) % (m : Int)).toNat := by
    simp [RnsScaler.scale]
  rw [hscale, crtRec_emod _ _ hgt hco,
    scaledVal_floor r column hd (by rw [hxi]; exact hi), hxi]
  rcases Nat.lt_or_ge i (r.from_moduli.prod / 2) with hlt | hge
  · rw [if_neg (by omega), if_neg (by omega), ← Int.natCast_mod, Int.toNat_natCast]
  · rw [if_pos hge, if_pos hge]
    exact neg_natCast_emod _ _ hP

/-- C1 (amended): for coprime source/destination products, floor-mode scaling of
a power-basis polynomial whose every column reconstructs to `i` produces columns
whose CRT value is `(i*n)/d mod P` when `i < Q/2`, and
`(P - ((Q-i)*n + d - 1)/d mod P) mod P` when `i ≥ Q/2` — the sign flip through
the modulus, taken as a canonical residue (with the final reduction modulo `P`,
which the unamended formula omits). -/
theorem scale_floor_crt (f t : Context) (fac : ScalingFactor) (s : Scaler)
    (hnew : Scaler.new f t fac = Except.ok s)
    (hfgt : ∀ m ∈ f.q, 1 < m) (htgt : ∀ m ∈ t.q, 1 < m)
    (htco : t.q.Pairwise Nat.Coprime)
    (hQP : Nat.Coprime f.q.prod t.q.prod)
    (hd : 0 < fac.denominator)
    (p : Poly) (i : Nat) (hi : i < f.q.prod)
    (hrep : p.representation = Representation.PowerBasis)
    (hctx : p.ctx.q = f.q) (hdeg : p.ctx.degree = t.degree)
    (hcols : ∀ j, j < t.degree → crtRec f.q (colOf p.coefficients j) = i) :
    ∃ res, s.scale p true = Except.ok res ∧
      ∀ j, j < t.degree → crtRec t.q (colOf res.coefficients j) =
        (if f.q.prod / 2 ≤ i then
          (t.q.prod -
              ((f.q.prod - i) * fac.numerator + fac.denominator - 1) /
                fac.denominator % t.q.prod) % t.q.prod
        else
          i * fac.numerator / fac.denominator % t.q.prod) := by
  have hsinv := scaler_new_inv f t fac s hnew
  have hfrom : s.from_ = f := by rw [hsinv]
  have hto : s.to_ = t := by rw [hsinv]
  have hker : s.scaler = RnsScaler.new f.q t.q fac := by rw [hsinv]
  have hn0 : s.number_common_moduli = 0 := by
    rw [hsinv]
    cases h1 : fac.is_one
    · simp
    · simp only [if_pos]
      exact commonPrefixLen_eq_zero f.q t.q hfgt hQP
  obtain ⟨res, hok, _, _, _, _, hco⟩ := scale_coeffs s p true (by rw [hctx, hfrom])
  refine ⟨res, hok, ?_⟩
  intro j hj
  have hj' : j < s.to_.degree := by rw [hto]; exact hj
  have hcol := colOf_scaleRest s p true j hj' (by rw [hto]; exact hdeg) hn0
    (by rw [hker, hto]; rfl)
  rw [hrep, if_pos rfl] at hco hcol
  rw [hn0, List.take_zero, List.nil_append] at hco
  rw [hco, hcol, hker]
  exact c1_column (RnsScaler.new f.q t.q fac) (colOf p.coefficients j) i htgt htco
    hd (hcols j hj) hi

/-- Counterexample to C1 as stated: with `Q = [3,5]` (product 15), `P = [7]`
(product 7, coprime to 15), factor `7/1` and all coefficients equal to `i = 8 ≥
Q/2`, the unamended formula `P − ((Q−i)·n + d−1)/d mod P` evaluates to `7`, but
the scaled polynomial's coefficient reconstructs to `0` (the kernel reduces the
sign-flipped value into `[0, P)`; `7` is not a residue modulo `7`). -/
theorem scale_floor_claim_counterexample :
    ((sAB.scale pA true).toOption.map fun res =>
        crtRec ctxB.q (colOf res.coefficients 0)) = some 0 ∧
      ctxA.q.prod / 2 ≤ 8 ∧ (8 : Nat) < ctxA.q.prod ∧
      Nat.Coprime ctxA.q.prod ctxB.q.prod ∧
      crtRec ctxA.q (colOf pA.coefficients 0) = 8 ∧
      ctxB.q.prod -
          ((ctxA.q.prod - 8) * fac71.numerator + fac71.denominator - 1) /
            fac71.denominator % ctxB.q.prod = 7 ∧
      (0 : Nat) ≠ 7 := by
  refine ⟨by decide, by decide, by decide, by decide, by decide, by decide,
    by decide⟩

/-- Closed witness for the amended C1 at the same concrete instance: the output
coefficient reconstructs to the amended (canonically reduced) value. -/
theorem scale_floor_crt_witness :
    ∃ res, sAB.scale pA true = Except.ok res ∧
      crtRec ctxB.q (colOf res.coefficients 0) =
        (if ctxA.q.prod / 2 ≤ 8 then
          (ctxB.q.prod -
              ((ctxA.q.prod - 8) * fac71.numerator + fac71.denominator - 1) /
                fac71.denominator % ctxB.q.prod) % ctxB.q.prod
        else
          8 * fac71.numerator / fac71.denominator % ctxB.q.prod) := by
  obtain ⟨res, hok, hval⟩ := scale_floor_crt ctxA ctxB fac71 sAB rfl
    (by decide) (by decide) (by simp [ctxB]) (by decide) (by decide)
    pA 8 (by decide) rfl rfl rfl (by decide)
  exact ⟨res, hok, hval 0 (by decide)⟩

/-- Backward after forward, row-wise, is the identity on matrices whose rows are
reduced modulo the corresponding operator's modulus. -/
theorem backward_forward_matrix (ops : List TransformOp) (m : List (List Nat))
    (h : List.Forall₂ (fun op row => ∀ x ∈ row, x < op.modulus) ops m) :
    List.zipWith (fun op row => op.backward row) ops
      (List.zipWith (fun op row => op.forward row) ops m) = m := by
  induction h with
  | nil => rfl
  | @cons op row ops' m' hr _ ih =>
    simp only [List.zipWith_cons_cons, List.cons.injEq]
    exact ⟨op.backward_forward row hr, ih⟩

theorem zipWith_back_append_split (ops : List TransformOp) (n : Nat)
    (A B : List (List Nat)) (hA : A.length = n) (hn : n ≤ ops.length) :
    List.zipWith (fun op row => op.backward row) ops (A ++ B) =
      List.zipWith (fun op row => op.backward row) (ops.take n) A ++
        List.zipWith (fun op row => op.backward row) (ops.drop n) B := by
  conv_lhs => rw [← List.take_append_drop n ops]
  rw [List.zipWith_append]
  rw [List.length_take, hA]
  omega

/-- Every row produced by the kernel loop is reduced modulo the modulus of the
corresponding (non-common) destination operator. -/
theorem scaleRest_entries_lt (s : Scaler) (p : Poly) (fl : Bool)
    (hmodt : List.Forall₂ (fun op m => op.modulus = m) s.to_.ops s.to_.q)
    (htpos : ∀ m ∈ s.to_.q, 0 < m)
    (hkerto : s.scaler.to_moduli = s.to_.q) :
    List.Forall₂ (fun op row => ∀ x ∈ row, x < op.modulus)
      (s.to_.ops.drop s.number_common_moduli) (scaleRest s p fl) := by
  have hlens := hmodt.length_eq
  rw [List.forall₂_iff_get]
  refine ⟨?_, ?_⟩
  · rw [List.length_drop, scaleRest_length, hlens]
  · intro i h₁ h₂
    simp only [List.get_eq_getElem]
    have hi : i < s.to_.q.length - s.number_common_moduli := by
      rw [scaleRest_length] at h₂
      simpa using h₂
    have hni : s.number_common_moduli + i < s.to_.q.length := by omega
    have hniops : s.number_common_moduli + i < s.to_.ops.length := by omega
    have hmod : (s.to_.ops.get ⟨s.number_common_moduli + i, hniops⟩).modulus =
        s.to_.q.get ⟨s.number_common_moduli + i, hni⟩ :=
      (List.forall₂_iff_get.mp hmodt).2 (s.number_common_moduli + i) hniops hni
    simp only [List.get_eq_getElem] at hmod
    intro x hx
    rw [List.getElem_drop, hmod]
    simp only [scaleRest, List.getElem_map, List.getElem_range,
      List.mem_map, List.mem_range] at hx
    obtain ⟨j, _, hxj⟩ := hx
    by_cases hc : j < min s.to_.degree p.ctx.degree
    · rw [if_pos hc] at hxj
      subst hxj
      have hkl : (s.scaler.scale
          (colOf
            (if p.representation = Representation.PowerBasis then p.coefficients
             else applyBackward p.allow_variable_time_computations p.ctx.ops
               p.coefficients) j)
          s.number_common_moduli fl) =
          (s.to_.q.drop s.number_common_moduli).map fun (m : Nat) =>
            ((s.scaler.scaledVal
              (colOf
                (if p.representation = Representation.PowerBasis then p.coefficients
                 else applyBackward p.allow_variable_time_computations p.ctx.ops
                   p.coefficients) j) fl) % (m : Int)).toNat := by
        rw [RnsScaler.scale, hkerto]
      rw [hkl]
      have hidrop : i < (s.to_.q.drop s.number_common_moduli).length := by
        rw [List.length_drop]
        omega
      have hilen : i < ((s.to_.q.drop s.number_common_moduli).map fun (m : Nat) =>
          ((s.scaler.scaledVal
            (colOf
              (if p.representation = Representation.PowerBasis then p.coefficients
               else applyBackward p.allow_variable_time_computations p.ctx.ops
                 p.coefficients) j) fl) % (m : Int)).toNat).length := by
        simpa using hidrop
      rw [List.getD_eq_getElem _ _ hilen]
      simp only [List.getElem_map, List.getElem_drop]
      exact emod_toNat_lt _ _ (htpos _ (List.getElem_mem hni))
    · rw [if_neg hc] at hxj
      subst hxj
      exact htpos _ (List.getElem_mem hni)

/-- C2: for a transformed-representation polynomial, scaling directly (the
Transformed branch: backward transform of a private copy, column-wise kernel,
forward transform of the non-common destination rows) and then converting to
power basis gives, bit for bit, the matrix obtained by converting to power basis
first and scaling that. -/
theorem scale_ntt_comm (f t : Context) (fac : ScalingFactor) (s : Scaler)
    (hnew : Scaler.new f t fac = Except.ok s)
    (p : Poly) (fl : Bool)
    (hctxp : p.ctx = f)
    (hrep : p.representation = Representation.Ntt)
    (hmodt : List.Forall₂ (fun op m => op.modulus = m) t.ops t.q)
    (hwf : PolyWF p)
    (hops : t.ops.take s.number_common_moduli = f.ops.take s.number_common_moduli)
    (htpos : ∀ m ∈ t.q, 0 < m) :
    ∃ r1 r2, s.scale p fl = Except.ok r1 ∧
      s.scale p.toPowerBasis fl = Except.ok r2 ∧
      r1.toPowerBasis.coefficients = r2.coefficients := by
  have hsinv := scaler_new_inv f t fac s hnew
  have hfrom : s.from_ = f := by rw [hsinv]
  have hto : s.to_ = t := by rw [hsinv]
  have hkerto : s.scaler.to_moduli = s.to_.q := by rw [hsinv]; rfl
  have hnle : s.number_common_moduli ≤ t.q.length := by
    rw [hsinv]
    cases h1 : fac.is_one
    · simp
    · simp only [if_pos]
      exact commonPrefixLen_le_right f.q t.q
  have hnlef : s.number_common_moduli ≤ f.q.length := by
    rw [hsinv]
    cases h1 : fac.is_one
    · simp
    · simp only [if_pos]
      exact commonPrefixLen_le_left f.q t.q
  obtain ⟨r1, hok1, hctx1, hrep1, hvt1, _, hco1⟩ :=
    scale_coeffs s p fl (by rw [hctxp, hfrom])
  have hp' : p.toPowerBasis =
      { ctx := p.ctx, representation := Representation.PowerBasis,
        allow_variable_time_computations := p.allow_variable_time_computations,
        coefficients := applyBackward p.allow_variable_time_computations
          p.ctx.ops p.coefficients,
        coefficients_shoup := none } := by
    rw [Poly.toPowerBasis, if_pos hrep]
  obtain ⟨r2, hok2, _, _, _, _, hco2⟩ := scale_coeffs s p.toPowerBasis fl
    (by rw [hp']; show p.ctx.q = s.from_.q; rw [hctxp, hfrom])
  refine ⟨r1, r2, hok1, hok2, ?_⟩
  have hrepr1 : r1.representation = Representation.Ntt := by rw [hrep1, hrep]
  have ht1 : r1.toPowerBasis.coefficients =
      applyBackward r1.allow_variable_time_computations r1.ctx.ops
        r1.coefficients := by
    rw [Poly.toPowerBasis, if_pos hrepr1]
  have hKeq : scaleRest s
      { ctx := p.ctx, representation := Representation.PowerBasis,
        allow_variable_time_computations := p.allow_variable_time_computations,
        coefficients := applyBackward p.allow_variable_time_computations
          p.ctx.ops p.coefficients,
        coefficients_shoup := none } fl = scaleRest s p fl := by
    simp [scaleRest, hrep]
  rw [hp'] at hco2
  simp only at hco2
  rw [if_pos trivial, hKeq] at hco2
  rw [hrep, if_neg (by simp), hto] at hco1
  rw [ht1, hvt1, hctx1, hto, hco1, hco2]
  simp only [applyBackward_eq_constant, applyForward_eq_constant]
  rw [hctxp]
  have hforall := scaleRest_entries_lt s p fl (by rw [hto]; exact hmodt)
    (by rw [hto]; exact htpos) hkerto
  rw [hto] at hforall
  have hA : (p.coefficients.take s.number_common_moduli).length =
      s.number_common_moduli := by
    rw [List.length_take]
    have h1 := hwf.1
    rw [hctxp] at h1
    omega
  rw [zipWith_back_append_split t.ops s.number_common_moduli _ _ hA
    (by rw [hmodt.length_eq]; exact hnle)]
  rw [backward_forward_matrix _ _ hforall, List.take_zipWith, ← hops]

/-- Closed witness for C2 at the transformed polynomial `pN` and scaler `sAB`. -/
theorem scale_ntt_comm_witness :
    ∃ r1 r2, sAB.scale pN true = Except.ok r1 ∧
      sAB.scale pN.toPowerBasis true = Except.ok r2 ∧
      r1.toPowerBasis.coefficients = r2.coefficients :=
  scale_ntt_comm ctxA ctxB fac71 sAB rfl pN true rfl rfl
    (List.Forall₂.cons rfl List.Forall₂.nil) ⟨rfl, by decide⟩ rfl (by decide)

/-- Closed witness for C7, on the transformed-representation polynomial `pN`. -/
theorem scale_result_form_witness :
    ∃ res, sAB.scale pN true = Except.ok res ∧
      res.ctx = ctxB ∧
      res.representation = pN.representation ∧
      res.allow_variable_time_computations =
        pN.allow_variable_time_computations ∧
      res.coefficients_shoup = none ∧
      res.coefficients.length = ctxB.q.length ∧
      ∀ row ∈ res.coefficients, row.length = ctxB.degree :=
  scale_result_form ctxA ctxB fac71 sAB rfl pN true rfl ⟨rfl, by decide⟩ rfl rfl

end FheRs
